import Mathlib

/-!
Shallow embedding of `bhandari-rs` (src/main.rs, src/lib.rs): the Bhandari
successive-shortest-paths algorithm for k link-disjoint minimum-cost paths.

Conventions of the embedding:
* Rust panics (`unwrap`, `expect`, index out of bounds, debug-mode arithmetic
  overflow checks) are modelled as `Failure.fatal msg`; recoverable
  `anyhow::Result` errors as `Failure.recoverable msg`; `Failure.fuelOut` is a
  model artifact marking executions whose source counterpart would not
  terminate within the chosen fuel bound.
* `std::collections::HashMap` is modelled as an insertion-ordered association
  list with key-unique insert (`aset`) and key removal (`aremove`).  The seed
  dependent iteration order of a real `HashMap` is abstracted by the parameter
  `sigma` of `bhandariCore`, applied to the entry list before the successor
  scan of the working graph (the only place where iteration order is
  observable).  `bhandari` itself fixes `sigma := id`.
* The shortest-path search of the `pathfinding` crate is an external
  collaborator of this repository (its code is not under src/).
  Modelled from the spec: ShortestPathFinder, a deterministic single-source
  priority-queue label-correcting search (Dijkstra) parameterized by a
  successor function, stopping at the first dequeued node satisfying the
  target predicate, returning the path as an ordered node sequence, or
  reporting unreachability as a recoverable failure.  The queue is a cost
  sorted list with FIFO tie order; the path is rebuilt by following parent
  pointers back to the start.
-/

namespace BhandariRs

/-- Decidable equality for `Except`, used to evaluate runs concretely. -/
instance {ε α : Type} [DecidableEq ε] [DecidableEq α] : DecidableEq (Except ε α) := fun a b =>
  match a, b with
  | Except.ok x, Except.ok y =>
    if h : x = y then isTrue (by rw [h]) else isFalse (by intro hc; cases hc; exact h rfl)
  | Except.error x, Except.error y =>
    if h : x = y then isTrue (by rw [h]) else isFalse (by intro hc; cases hc; exact h rfl)
  | Except.ok _, Except.error _ => isFalse (by intro hc; cases hc)
  | Except.error _, Except.ok _ => isFalse (by intro hc; cases hc)

/-- Outcome classification: recoverable errors vs process-aborting panics. -/
inductive Failure where
  | recoverable (msg : String)
  | fatal (msg : String)
  | fuelOut
deriving DecidableEq, Repr

/-- `struct Edge` of src/main.rs and src/lib.rs (string node names). -/
structure REdge where
  src : String
  dst : String
  weight : Int
deriving DecidableEq, Repr

/-- The index-typed edge struct declared inside `bhandari`. -/
structure IEdge where
  src : Nat
  dst : Nat
  w : Int
deriving DecidableEq, Repr

/-- A directed link: an ordered pair of node indices. -/
abbrev Link := Nat × Nat

/-- Model of `HashMap<(u32, u32), i32>`: insertion-ordered entry list. -/
abbrev WMap := List (Link × Int)

/-- First-match association lookup. -/
def alookup {κ β : Type} [DecidableEq κ] (k : κ) : List (κ × β) → Option β
  | [] => none
  | (k', v) :: rest => if k' = k then some v else alookup k rest

/-- `HashMap::insert`: overwrite the value at an existing key, else append. -/
def aset {κ β : Type} [DecidableEq κ] (k : κ) (v : β) : List (κ × β) → List (κ × β)
  | [] => [(k, v)]
  | (k', v') :: rest => if k' = k then (k, v) :: rest else (k', v') :: aset k v rest

/-- `HashMap::remove_entry`: take out the entry at a key, if present. -/
def aremove {κ β : Type} [DecidableEq κ] (k : κ) : List (κ × β) → Option (β × List (κ × β))
  | [] => none
  | (k', v') :: rest =>
    if k' = k then some (v', rest)
    else (aremove k rest).map (fun p => (p.1, (k', v') :: p.2))

/-- Erase the first entry carrying the given key (spec phrasing of removal). -/
def aeraseKey {κ β : Type} [DecidableEq κ] (k : κ) : List (κ × β) → List (κ × β)
  | [] => []
  | (k', v') :: rest => if k' = k then rest else (k', v') :: aeraseKey k rest

/-- `HashMap::from_iter` over the converted edge list (line 104-105). -/
def fromIterMap (g : List IEdge) : WMap :=
  g.foldl (fun m e => aset (e.src, e.dst) e.w m) []

/-- Rust `Vec::dedup`: collapse consecutive equal elements. -/
def dedupConsec : List String → List String
  | [] => []
  | [a] => [a]
  | a :: b :: rest =>
    if a = b then dedupConsec (b :: rest) else a :: dedupConsec (b :: rest)

/-- Lexicographic order on character lists, matching the byte order Rust uses
to sort `Vec<String>` (UTF-8 byte order agrees with scalar-value order). -/
def lexLe : List Char → List Char → Bool
  | [], _ => true
  | _ :: _, [] => false
  | a :: as, b :: bs =>
    if a.toNat < b.toNat then true
    else if b.toNat < a.toNat then false
    else lexLe as bs

/-- The string order used by `nodes.sort()`. -/
def strLe (a b : String) : Prop := lexLe a.data b.data = true

instance strLeDecidable : DecidableRel strLe := fun a b => by
  unfold strLe; infer_instance

/-- The sorted, deduplicated node-name table of `bhandari` (lines 49-63). -/
def nodeTable (edges : List REdge) : List String :=
  dedupConsec (List.insertionSort strLe
    (edges.map REdge.src ++ edges.map REdge.dst))

/-- `Option::unwrap`: a `None` aborts the process. -/
def getOrPanic {α : Type} (o : Option α) (msg : String) : Except Failure α :=
  match o with
  | some a => Except.ok a
  | none => Except.error (Failure.fatal msg)

/-- Name-to-index conversion of the edge list (lines 65-72); the `unwrap`s
cannot fail because every endpoint name occurs in the node table. -/
def convertEdges (nodes : List String) (edges : List REdge) : Except Failure (List IEdge) :=
  edges.mapM (fun e => do
    let f ← getOrPanic (nodes.findIdx? (fun n => n = e.src)) "unwrap on None"
    let t ← getOrPanic (nodes.findIdx? (fun n => n = e.dst)) "unwrap on None"
    Except.ok (IEdge.mk f t e.weight))

/-- Successor closure over the converted edge vector (lines 80-86). -/
def succsOfVec (g : List IEdge) (u : Nat) : List (Nat × Int) :=
  g.filterMap (fun e => if e.src = u then some (e.dst, e.w) else none)

/-- Successor closure over the working-graph map entries (lines 120-126). -/
def succsOfMap (m : WMap) (u : Nat) : List (Nat × Int) :=
  m.filterMap (fun p => if u = p.1.1 then some (p.1.2, p.2) else none)

/-- Cost-sorted queue insert, placed after existing equal-cost entries. -/
def pushQueue (c : Int) (n : Nat) : List (Int × Nat) → List (Int × Nat)
  | [] => [(c, n)]
  | (c', n') :: rest =>
    if c < c' then (c, n) :: (c', n') :: rest else (c', n') :: pushQueue c n rest

/-- Search state of the shortest-path finder: best-known costs, parent
pointers and the priority queue. -/
structure DState where
  dist : List (Nat × Int)
  par : List (Nat × Nat)
  queue : List (Int × Nat)

/-- Relax all successors of a settled node, updating costs and parents. -/
def relax (u : Nat) (cu : Int) (st : DState) (succs : List (Nat × Int)) : DState :=
  succs.foldl (fun st vw =>
    let nc := cu + vw.2
    match alookup vw.1 st.dist with
    | some cv =>
      if nc < cv then
        DState.mk (aset vw.1 nc st.dist) (aset vw.1 u st.par) (pushQueue nc vw.1 st.queue)
      else st
    | none =>
        DState.mk (aset vw.1 nc st.dist) (aset vw.1 u st.par) (pushQueue nc vw.1 st.queue)) st

/-- Follow parent pointers from a node back to the start, producing the path
in forward order.  A chain longer than the parent table means the pointers
cycle, which the source search could only produce by running forever. -/
def chainAux (par : List (Nat × Nat)) (start : Nat) : Nat → Nat → Option (List Nat)
  | fuel, n =>
    if n = start then some [start]
    else
      match fuel with
      | 0 => none
      | f + 1 =>
        (alookup n par).bind (fun q => (chainAux par start f q).map (fun l => l ++ [n]))

/-- Main search loop: pop the cheapest queue entry; stop at the first node
satisfying the target predicate; skip stale entries; otherwise relax.
`some none` reports an exhausted queue (target unreachable). -/
def dloop (succ : Nat → List (Nat × Int)) (stopAt : Nat → Bool) (start : Nat) :
    Nat → DState → Option (Option (List Nat))
  | 0, _ => none
  | fuel + 1, st =>
    match st.queue with
    | [] => some none
    | (c, u) :: rest =>
      if stopAt u then
        match chainAux st.par start (st.par.length + 1) u with
        | some p => some (some p)
        | none => none
      else
        match alookup u st.dist with
        | some cu =>
          if cu < c then dloop succ stopAt start fuel (DState.mk st.dist st.par rest)
          else dloop succ stopAt start fuel (relax u cu (DState.mk st.dist st.par rest) (succ u))
        | none => dloop succ stopAt start fuel (DState.mk st.dist st.par rest)

/-- ShortestPathFinder (Modelled from the spec, see the header comment). -/
def dijkstra (succ : Nat → List (Nat × Int)) (stopAt : Nat → Bool) (start : Nat)
    (fuel : Nat) : Option (Option (List Nat)) :=
  dloop succ stopAt start fuel (DState.mk [(start, 0)] [] [(0, start)])

/-- The `dijkstra(...).context(...)?` pattern of lines 88-94 and 127-129:
unreachability becomes a recoverable error surfaced to the caller. -/
def runDijkstra (succ : Nat → List (Nat × Int)) (stopAt : Nat → Bool) (start : Nat)
    (fuel : Nat) : Except Failure (List Nat) :=
  match dijkstra succ stopAt start fuel with
  | some (some p) => Except.ok p
  | some none => Except.error (Failure.recoverable "graph contains no such path")
  | none => Except.error Failure.fuelOut

/-- The link list of a path: its consecutive ordered pairs (`windows(2)`). -/
def linksOf (p : List Nat) : List Link := p.zip p.tail

/-- One step of the reversal transformation (lines 107-117): remove the used
link from the working graph and insert the reverse link with negated weight;
a missing link is an `expect` panic. -/
def reverseLink (m : WMap) (l : Link) : Except Failure WMap :=
  match aremove l m with
  | none => Except.error (Failure.fatal "link should be present")
  | some (w, m') => Except.ok (aset (l.2, l.1) (-w) m')

/-- Build the per-iteration working graph from the original map and the
accumulated paths, in accumulation order (lines 104-117). -/
def buildWorking (init : WMap) (paths : List (List Nat)) : Except Failure WMap :=
  paths.foldlM (fun m p => (linksOf p).foldlM reverseLink m) init

/-- The undirected-counterpart test of the uncrossing step (line 148). -/
def undirEq (a b : Link) : Bool :=
  (a.1 == b.1 && a.2 == b.2) || (a.1 == b.2 && a.2 == b.1)

/-- One cancel-or-add step of the uncrossing pass (lines 145-154): remove the
first matching occurrence, else append the link. -/
def cancelOrAdd (acc : List Link) (l : Link) : List Link :=
  match acc.findIdx? (fun x => undirEq l x) with
  | some i => acc.eraseIdx i
  | none => acc ++ [l]

/-- The uncrossing pass (lines 134-155): start from the first path's links,
then process every later path's links in order. -/
def uncross : List (List Nat) → List Link
  | [] => []
  | p :: ps => ps.foldl (fun acc q => (linksOf q).foldl cancelOrAdd acc) (linksOf p)

/-- Take out the first link satisfying a predicate, returning it and the
remaining list (`position` + `remove` of lines 170-174). -/
def extractFirst (q : Link → Bool) : List Link → Option (Link × List Link)
  | [] => none
  | l :: rest =>
    if q l then some (l, rest)
    else (extractFirst q rest).map (fun p => (p.1, l :: p.2))

/-- The walk of lines 166-179: from `cur`, repeatedly consume the first
surviving link leaving the current node until the target is reached.  Each
step removes one link, so `links.length + 1` fuel is never exhausted; a
missing continuation is the `expect("should exist")` panic. -/
def walkFrom (tgt : Nat) : Nat → List Link → Nat → Except Failure (List Nat × List Link)
  | fuel, links, cur =>
    if cur = tgt then Except.ok ([], links)
    else
      match fuel with
      | 0 => Except.error Failure.fuelOut
      | f + 1 =>
        match extractFirst (fun l => l.1 == cur) links with
        | none => Except.error (Failure.fatal "should exist")
        | some (l, rest) =>
          (walkFrom tgt f rest l.2).map (fun pr => (l.2 :: pr.1, pr.2))

/-- Run one walk per starting link, threading the surviving link list through
all walks in order (lines 163-181). -/
def walkAll (tgt : Nat) : List Link → List Link → Except Failure (List (List Nat) × List Link)
  | [], links => Except.ok ([], links)
  | st :: more, links => do
    let pr ← walkFrom tgt (links.length + 1) links st.2
    let rest ← walkAll tgt more pr.2
    Except.ok ((st.1 :: st.2 :: pr.1) :: rest.1, rest.2)

/-- The reconstruction step (lines 157-181): every surviving link leaving the
source starts one output path. -/
def reconstruct (s tgt : Nat) (uniqueLinks : List Link) : Except Failure (List (List Nat)) := do
  let startingLinks := uniqueLinks.filter (fun l => l.1 == s)
  let pr ← walkAll tgt startingLinks uniqueLinks
  Except.ok pr.1

/-- Debug-profile evaluation of the unsigned `k - 1` of line 99: `k = 0`
trips the overflow check and aborts. -/
def subOne (k : Nat) : Except Failure Nat :=
  if k = 0 then Except.error (Failure.fatal "attempt to subtract with overflow")
  else Except.ok (k - 1)

/-- The composer loop (lines 99-182), one recursive step per remaining path:
rebuild the working graph, search, uncross, reconstruct. -/
def bLoop (sigma : WMap → WMap) (g : List IEdge) (s t fuel : Nat) :
    List (List Nat) → Nat → Except Failure (List (List Nat))
  | paths, 0 => Except.ok paths
  | paths, n + 1 => do
    let w ← buildWorking (fromIterMap g) paths
    let p ← runDijkstra (succsOfMap (sigma w)) (fun u => u == t) s fuel
    let paths2 ← reconstruct s t (uncross (paths ++ [p]))
    bLoop sigma g s t fuel paths2 n

/-- Map the final index paths back to node names (lines 185-192); an out of
range index would be a Rust indexing panic. -/
def namesBack (nodes : List String) (paths : List (List Nat)) :
    Except Failure (List (List String)) :=
  paths.mapM (fun p => p.mapM (fun i => getOrPanic (nodes.get? i) "index out of bounds"))

/-- The full `bhandari` function (lines 41-195), parameterized by the
working-graph entry enumeration order `sigma` and by search fuel. -/
def bhandariCore (sigma : WMap → WMap) (edges : List REdge) (sName tName : String)
    (k fuel : Nat) : Except Failure (List (List String)) := do
  let nodes := nodeTable edges
  let g ← convertEdges nodes edges
  let s ← getOrPanic (nodes.findIdx? (fun n => n = sName)) "unwrap on None"
  let t ← getOrPanic (nodes.findIdx? (fun n => n = tName)) "unwrap on None"
  let p1 ← runDijkstra (succsOfVec g) (fun u => u == t) s fuel
  let iters ← subOne k
  let finalPaths ← bLoop sigma g s t fuel [p1] iters
  namesBack nodes finalPaths

/-- `bhandari` as shipped: insertion-order enumeration and generous fuel. -/
def bhandari (edges : List REdge) (sName tName : String) (k : Nat) :
    Except Failure (List (List String)) :=
  bhandariCore id edges sName tName k (2 ^ (edges.length * edges.length + 16))

/-- `split_whitespace`: maximal runs of non-whitespace characters. -/
def wsTokens (acc : List Char) : List Char → List String
  | [] => if acc = [] then [] else [String.mk acc.reverse]
  | c :: rest =>
    if c.isWhitespace then
      if acc = [] then wsTokens [] rest
      else String.mk acc.reverse :: wsTokens [] rest
    else wsTokens (c :: acc) rest

/-- `parse_edge` of src/lib.rs lines 22-45 (and main.rs lines 214-237):
whitespace-split a line into `from weight to`, optionally emitting both
directions. -/
def parseEdge (line : String) (undirected : Bool) : Except Failure (List REdge) := do
  let parts := wsTokens [] line.data
  let frm ← match parts.get? 0 with
    | some w => Except.ok w
    | none => Except.error (Failure.recoverable "no starting node")
  let wtok ← match parts.get? 1 with
    | some w => Except.ok w
    | none => Except.error (Failure.recoverable "no weight")
  let weight ← match wtok.toInt? with
    | some i => Except.ok i
    | none => Except.error (Failure.recoverable "invalid integer")
  let dst ← match parts.get? 2 with
    | some w => Except.ok w
    | none => Except.error (Failure.recoverable "no finish node")
  Except.ok (if undirected then
      [REdge.mk frm dst weight, REdge.mk dst frm weight]
    else [REdge.mk frm dst weight])

/-- `load_edges_from_file` lines 12-20, past the I/O boundary: the line list
stands for the file contents.  The `.unwrap()` inside `flat_map` turns any
parse failure into a panic. -/
def loadEdgesFromLines (lines : List String) (undirected : Bool) :
    Except Failure (List REdge) := do
  let kept := lines.filter (fun l => !l.data.isEmpty && !(l.data.take 2 == ['/', '/']))
  let ess ← kept.mapM (fun l =>
    match parseEdge l undirected with
    | Except.ok es => Except.ok es
    | Except.error _ => Except.error (Failure.fatal "unwrap on Err"))
  Except.ok ess.flatten

/-! ### Spec-side formulations used by the refinement claims -/

/-- Spec phrasing of one reversal step: look the weight of `(u, v)` up in the
working graph, remove that entry, and insert `(v, u)` with the negated
weight; a missing entry is the panic of line 114. -/
def reverseLinkSpec (m : WMap) (l : Link) : Except Failure WMap :=
  match alookup l m with
  | none => Except.error (Failure.fatal "link should be present")
  | some w => Except.ok (aset (l.2, l.1) (-w) (aeraseKey l m))

/-- Spec phrasing of the working-graph build: start from the original
pair-to-weight mapping and apply the reversal step once per link of every
accumulated path, in accumulation order. -/
def buildWorkingSpec (orig : List IEdge) (paths : List (List Nat)) : Except Failure WMap :=
  ((paths.map linksOf).flatten).foldlM reverseLinkSpec (fromIterMap orig)

/-- Spec phrasing of the cancel-or-add rule: if the link or its undirected
counterpart is already present, remove that occurrence, else append. -/
def cancelOrAddSpec (acc : List Link) (l : Link) : List Link :=
  if acc.any (fun x => undirEq l x) then acc.eraseP (fun x => undirEq l x)
  else acc ++ [l]

/-- Spec phrasing of the uncrossing pass: start from path 1's link list and
process each later path's links in order with the cancel-or-add rule. -/
def uncrossSpec : List (List Nat) → List Link
  | [] => []
  | p :: ps => ((ps.map linksOf).flatten).foldl cancelOrAddSpec (linksOf p)

/-- No link of one path occurs in another path, in either direction. -/
def PairwiseUndirDisjoint (paths : List (List Nat)) : Prop :=
  List.Pairwise (fun p q => ∀ a ∈ linksOf p, ∀ b ∈ linksOf q, undirEq a b = false) paths

/-- A link list with no two entries equal or reversed. -/
def noUndirDup (ls : List Link) : Prop :=
  List.Pairwise (fun a b => undirEq a b = false) ls

/-! ### Association-list and fold lemmas -/

theorem aremove_eq {κ β : Type} [DecidableEq κ] (k : κ) (m : List (κ × β)) :
    aremove k m = (alookup k m).map (fun w => (w, aeraseKey k m)) := by
  induction m with
  | nil => rfl
  | cons e rest ih =>
    obtain ⟨k', v'⟩ := e
    by_cases h : k' = k
    · simp [aremove, alookup, aeraseKey, h]
    · simp only [aremove, alookup, aeraseKey, if_neg h, ih]
      cases alookup k rest <;> simp

theorem reverseLink_eq_spec (m : WMap) (l : Link) : reverseLink m l = reverseLinkSpec m l := by
  unfold reverseLink reverseLinkSpec
  rw [aremove_eq]
  cases alookup l m <;> simp

theorem except_bind_ok {ε α β : Type} (b : α) (f : α → Except ε β) :
    (Except.ok b >>= f) = f b := rfl

theorem except_bind_error {ε α β : Type} (e : ε) (f : α → Except ε β) :
    ((Except.error e : Except ε α) >>= f) = Except.error e := rfl

theorem foldlM_flatten {α β : Type} (f : β → α → Except Failure β) (ls : List (List α))
    (init : β) :
    ls.flatten.foldlM f init = ls.foldlM (fun b l => l.foldlM f b) init := by
  induction ls generalizing init with
  | nil => rfl
  | cons l ls ih =>
    rw [List.flatten_cons, List.foldlM_append, List.foldlM_cons]
    cases h : l.foldlM f init with
    | ok b => simp only [h, except_bind_ok, ih]
    | error e => simp only [h, except_bind_error]

/-- For claim C3: the working graph built by the code (lines 104-117) equals
the spec description, a fold of remove-and-insert-negated over every link of
every previously accumulated path in accumulation order, applied to the
original pair-to-weight mapping. -/
theorem c3_working_graph_rebuild (orig : List IEdge) (paths : List (List Nat)) :
    buildWorking (fromIterMap orig) paths = buildWorkingSpec orig paths := by
  unfold buildWorking buildWorkingSpec
  have hf : reverseLink = reverseLinkSpec := by
    funext m l
    exact reverseLink_eq_spec m l
  rw [hf, foldlM_flatten, List.foldlM_map]

theorem findIdx?_aux_some {α : Type} (p : α → Bool) :
    ∀ (l : List α) (i j : Nat), List.findIdx? p l i = some j →
      ∃ d, j = i + d ∧ l.any p = true ∧ l.eraseIdx d = l.eraseP p := by
  intro l
  induction l with
  | nil => intro i j h; cases h
  | cons a rest ih =>
    intro i j h
    by_cases ha : p a
    · rw [List.findIdx?_cons, if_pos ha] at h
      cases h
      exact ⟨0, by omega, by simp [List.any_cons, ha], by simp [List.eraseIdx, List.eraseP_cons, ha]⟩
    · have ha' : p a = false := by simp [ha]
      rw [List.findIdx?_cons, if_neg ha] at h
      obtain ⟨d, hd, hany, herase⟩ := ih (i + 1) j h
      refine ⟨d + 1, by omega, by simp [List.any_cons, hany], ?_⟩
      simp [List.eraseIdx, List.eraseP_cons, ha', herase]

theorem findIdx?_some_eraseIdx {α : Type} (p : α → Bool) (l : List α) (i : Nat)
    (h : l.findIdx? p = some i) : l.any p = true ∧ l.eraseIdx i = l.eraseP p := by
  obtain ⟨d, hd, hany, herase⟩ := findIdx?_aux_some p l 0 i h
  have : i = d := by omega
  subst this
  exact ⟨hany, herase⟩

theorem cancelOrAdd_eq_spec (acc : List Link) (l : Link) :
    cancelOrAdd acc l = cancelOrAddSpec acc l := by
  unfold cancelOrAdd cancelOrAddSpec
  cases h : acc.findIdx? (fun x => undirEq l x) with
  | none =>
    have hall : ∀ x ∈ acc, undirEq l x = false := by
      intro x hx
      by_contra hc
      have : undirEq l x = true := by
        cases hu : undirEq l x
        · exact absurd hu hc
        · rfl
      have : acc.any (fun x => undirEq l x) = true := List.any_eq_true.mpr ⟨x, hx, this⟩
      rcases List.any_eq_true.mp this with ⟨y, hy, hpy⟩
      have hne := List.findIdx?_eq_none_iff.mp h
      have := hne y hy
      simp [hpy] at this
    have : acc.any (fun x => undirEq l x) = false := by
      cases hh : acc.any (fun x => undirEq l x)
      · rfl
      · rcases List.any_eq_true.mp hh with ⟨y, hy, hpy⟩
        have := hall y hy
        simp [this] at hpy
    simp [this]
  | some i =>
    obtain ⟨h1, h2⟩ := findIdx?_some_eraseIdx _ acc i h
    simp [h1, h2]

/-- For claim C4: the uncrossing step of lines 134-155 equals the spec
description, starting from path 1's links and applying the symmetric
cancel-or-add rule to each later path's links in order. -/
theorem c4_uncross_cancel_or_add (paths : List (List Nat)) :
    uncross paths = uncrossSpec paths := by
  cases paths with
  | nil => rfl
  | cons p ps =>
    have hf : cancelOrAdd = cancelOrAddSpec := by
      funext acc l
      exact cancelOrAdd_eq_spec acc l
    show ps.foldl (fun acc q => (linksOf q).foldl cancelOrAdd acc) (linksOf p) =
      ((ps.map linksOf).flatten).foldl cancelOrAddSpec (linksOf p)
    rw [hf, List.foldl_flatten, List.foldl_map]

/-! ### Uncrossing: the cancel-or-add rule on fresh links -/

theorem undirEq_iff (a b : Link) :
    undirEq a b = true ↔ (a.1 = b.1 ∧ a.2 = b.2) ∨ (a.1 = b.2 ∧ a.2 = b.1) := by
  simp [undirEq]

theorem undirEq_symm (a b : Link) : undirEq a b = undirEq b a := by
  cases h1 : undirEq a b
  · cases h2 : undirEq b a
    · rfl
    · rcases (undirEq_iff b a).mp h2 with ⟨x, y⟩ | ⟨x, y⟩
      · have : undirEq a b = true := (undirEq_iff a b).mpr (Or.inl ⟨x.symm, y.symm⟩)
        rw [this] at h1; cases h1
      · have : undirEq a b = true := (undirEq_iff a b).mpr (Or.inr ⟨y.symm, x.symm⟩)
        rw [this] at h1; cases h1
  · rcases (undirEq_iff a b).mp h1 with ⟨x, y⟩ | ⟨x, y⟩
    · exact ((undirEq_iff b a).mpr (Or.inl ⟨x.symm, y.symm⟩)).symm
    · exact ((undirEq_iff b a).mpr (Or.inr ⟨y.symm, x.symm⟩)).symm

theorem undirEq_refl (a : Link) : undirEq a a = true :=
  (undirEq_iff a a).mpr (Or.inl ⟨rfl, rfl⟩)

/-- Folding the cancel-or-add rule over links that are all fresh (no pair of
the whole collection matches, even reversed) just appends them. -/
theorem foldl_cancelOrAdd_of_fresh :
    ∀ (L acc : List Link), noUndirDup (acc ++ L) →
      L.foldl cancelOrAdd acc = acc ++ L := by
  intro L
  induction L with
  | nil => intro acc _; simp
  | cons l L' ih =>
    intro acc h
    have hacc : ∀ x ∈ acc, undirEq l x = false := by
      intro x hx
      have := (List.pairwise_append.mp h).2.2 x hx l (List.mem_cons_self l L')
      rw [undirEq_symm]
      exact this
    have hstep : cancelOrAdd acc l = acc ++ [l] := by
      unfold cancelOrAdd
      rw [List.findIdx?_eq_none_iff.mpr hacc]
    rw [List.foldl_cons, hstep, ih (acc ++ [l]) (by rwa [List.append_assoc])]
    simp

/-- For claim C5, counterexample: the paths `[0,1]` and `[2,3,2]` are
pairwise link-disjoint in either direction, yet the uncrossing step does not
leave their link collection unchanged (the second path cancels itself). -/
theorem c5_uncross_not_noop_on_disjoint :
    PairwiseUndirDisjoint [[0, 1], [2, 3, 2]] ∧
      uncross [[0, 1], [2, 3, 2]] ≠ (([[0, 1], [2, 3, 2]].map linksOf)).flatten := by
  constructor
  · unfold PairwiseUndirDisjoint
    decide
  · decide

/-- For claim C5, amended: on paths that are pairwise link-disjoint in either
direction and each of which contains no repeated or opposite link within
itself, the uncrossing step leaves the link collection unchanged, so a
second uncrossing run is a no-op. -/
theorem c5_uncross_noop_on_disjoint_simple (paths : List (List Nat))
    (hin : ∀ p ∈ paths, noUndirDup (linksOf p)) (hpw : PairwiseUndirDisjoint paths) :
    uncross paths = (paths.map linksOf).flatten := by
  cases paths with
  | nil => rfl
  | cons p ps =>
    have hflat : noUndirDup ((List.map linksOf (p :: ps)).flatten) := by
      unfold noUndirDup
      rw [List.pairwise_flatten]
      constructor
      · intro l hl
        rw [List.mem_map] at hl
        obtain ⟨q, hq, rfl⟩ := hl
        exact hin q hq
      · rw [List.pairwise_map]
        exact hpw
    have : (List.map linksOf (p :: ps)).flatten = linksOf p ++ (List.map linksOf ps).flatten := by
      simp
    rw [this] at hflat
    show ps.foldl (fun acc q => (linksOf q).foldl cancelOrAdd acc) (linksOf p) =
      (List.map linksOf (p :: ps)).flatten
    have hjoin : ∀ (qs : List (List Nat)) (acc : List Link),
        noUndirDup (acc ++ (List.map linksOf qs).flatten) →
        qs.foldl (fun acc q => (linksOf q).foldl cancelOrAdd acc) acc =
          acc ++ (List.map linksOf qs).flatten := by
      intro qs
      induction qs with
      | nil => intro acc _; simp
      | cons q qs' ih2 =>
        intro acc hnd
        have hsplit : acc ++ (List.map linksOf (q :: qs')).flatten =
            (acc ++ linksOf q) ++ (List.map linksOf qs').flatten := by
          simp
        rw [List.foldl_cons]
        have h1 : (linksOf q).foldl cancelOrAdd acc = acc ++ linksOf q := by
          apply foldl_cancelOrAdd_of_fresh
          rw [hsplit] at hnd
          exact hnd.sublist (List.sublist_append_left _ _)
        rw [h1, ih2 (acc ++ linksOf q) (by rw [hsplit] at hnd; exact hnd)]
        simp
    rw [hjoin ps (linksOf p) hflat]
    simp

/-- Concrete instantiation of the amended claim C5 on two disjoint simple
paths. -/
theorem c5_uncross_noop_witness :
    uncross [[0, 1, 2], [0, 3, 2]] = (([[0, 1, 2], [0, 3, 2]].map linksOf)).flatten :=
  c5_uncross_noop_on_disjoint_simple [[0, 1, 2], [0, 3, 2]]
    (by intro p hp; fin_cases hp <;> (unfold noUndirDup; decide))
    (by unfold PairwiseUndirDisjoint; decide)

/-! ### Error propagation and concrete runs -/

/-- A graph whose target node `c` exists but is unreachable from `a`. -/
def unreachEdges : List REdge := [REdge.mk "a" "b" 1, REdge.mk "c" "b" 1]

/-- Three equal-cost parallel routes from `a` to `t`: a tie instance. -/
def tieEdges : List REdge :=
  [REdge.mk "a" "b" 1, REdge.mk "b" "t" 1, REdge.mk "a" "c" 1,
   REdge.mk "c" "t" 1, REdge.mk "a" "d" 1, REdge.mk "d" "t" 1]

theorem bind_error_exists {α β : Type} (x : Except Failure α) (f : α → Except Failure β)
    (h : ∀ a, ∃ e, f a = Except.error e) : ∃ e, (x >>= f) = Except.error e := by
  cases x with
  | error e => exact ⟨e, rfl⟩
  | ok a => exact h a

/-- For claim C7: a surviving link set that does not decompose into
source-to-target walks makes the reconstruction step abort with the
`expect("should exist")` panic of line 173 — not a recoverable failure.
Here the single walk from source 0 dead-ends at node 1 before target 2. -/
theorem c7_reconstruction_panics_on_dead_end :
    reconstruct 0 2 [(0, 1)] = Except.error (Failure.fatal "should exist") := by decide

/-- For claim C8: malformed input aborts the process instead of being
rejected as a returned error: a source name absent from the edge set trips
the `unwrap` of line 74, and an edge line that fails to parse trips the
`unwrap` inside `load_edges_from_file` (lib.rs line 16). -/
theorem c8_malformed_input_panics :
    bhandari [REdge.mk "a" "b" 1] "z" "b" 1 = Except.error (Failure.fatal "unwrap on None") ∧
      loadEdgesFromLines ["x"] false = Except.error (Failure.fatal "unwrap on Err") := by
  exact ⟨by decide, by decide⟩

/-- For claim C9: the output of `bhandari` depends on the enumeration order
of the working-graph `HashMap` (the order `graph.iter()` yields entries in
the successor closure of lines 120-126, which varies with the per-process
hash seed).  Reversing the enumeration — a permutation of the same entries —
changes which of two equal-cost second paths is returned. -/
theorem c9_output_depends_on_enumeration_order :
    (∀ (m : WMap), m.reverse.Perm m) ∧
      bhandariCore id tieEdges "a" "t" 2 400 =
        Except.ok [["a", "b", "t"], ["a", "c", "t"]] ∧
      bhandariCore List.reverse tieEdges "a" "t" 2 400 =
        Except.ok [["a", "b", "t"], ["a", "d", "t"]] ∧
      bhandariCore List.reverse tieEdges "a" "t" 2 400 ≠
        bhandariCore id tieEdges "a" "t" 2 400 :=
  ⟨fun m => List.reverse_perm m, by decide, by decide, by decide⟩

/-- For claim C10, counterexample: with `k = 0` and an unreachable target,
`bhandari` returns the first search's recoverable error — the initial
shortest-path search of line 89 runs before the loop bound `k - 1` of line
99 is ever evaluated. -/
theorem c10_k_zero_returns_recoverable_error :
    bhandari unreachEdges "a" "c" 0 =
      Except.error (Failure.recoverable "graph contains no such path") := by decide

/-- For claim C10, amended: a `k = 0` call never returns a path list (empty
or not).  Either an earlier stage fails and that error is returned, or the
debug-profile underflow check on the loop bound `k - 1` aborts the process. -/
theorem c10_k_zero_never_returns_paths :
    (∀ (sigma : WMap → WMap) (edges : List REdge) (sName tName : String) (fuel : Nat),
        ∃ e, bhandariCore sigma edges sName tName 0 fuel = Except.error e) ∧
      subOne 0 = Except.error (Failure.fatal "attempt to subtract with overflow") := by
  refine ⟨?_, rfl⟩
  intro sigma edges sName tName fuel
  unfold bhandariCore
  apply bind_error_exists
  intro g
  apply bind_error_exists
  intro s
  apply bind_error_exists
  intro t
  apply bind_error_exists
  intro p1
  exact ⟨Failure.fatal "attempt to subtract with overflow", rfl⟩

/-- For claim C6: whenever a shortest-path search reports the target
unreachable — in the original graph before the loop, or in the working
graph of any composer iteration — the whole run returns the recoverable
"no such path" error to its caller; it does not abort. -/
theorem c6_unreachable_target_is_recoverable :
    (∀ (sigma : WMap → WMap) (edges : List REdge) (sName tName : String) (k fuel : Nat)
        (g : List IEdge) (s t : Nat),
        convertEdges (nodeTable edges) edges = Except.ok g →
        (nodeTable edges).findIdx? (fun n => n = sName) = some s →
        (nodeTable edges).findIdx? (fun n => n = tName) = some t →
        dijkstra (succsOfVec g) (fun u => u == t) s fuel = some none →
        bhandariCore sigma edges sName tName k fuel =
          Except.error (Failure.recoverable "graph contains no such path")) ∧
      (∀ (sigma : WMap → WMap) (g : List IEdge) (s t fuel : Nat)
          (paths : List (List Nat)) (n : Nat) (w : WMap),
        buildWorking (fromIterMap g) paths = Except.ok w →
        dijkstra (succsOfMap (sigma w)) (fun u => u == t) s fuel = some none →
        bLoop sigma g s t fuel paths (n + 1) =
          Except.error (Failure.recoverable "graph contains no such path")) := by
  constructor
  · intro sigma edges sName tName k fuel g s t hg hs ht hd
    simp only [bhandariCore]
    rw [hg, hs, ht, except_bind_ok]
    rw [show getOrPanic (some s) "unwrap on None" = Except.ok s from rfl, except_bind_ok]
    rw [show getOrPanic (some t) "unwrap on None" = Except.ok t from rfl, except_bind_ok]
    rw [show runDijkstra (succsOfVec g) (fun u => u == t) s fuel =
      Except.error (Failure.recoverable "graph contains no such path") by
        unfold runDijkstra; rw [hd]]
    rfl
  · intro sigma g s t fuel paths n w hw hd
    simp only [bLoop]
    rw [hw, except_bind_ok]
    rw [show runDijkstra (succsOfMap (sigma w)) (fun u => u == t) s fuel =
      Except.error (Failure.recoverable "graph contains no such path") by
        unfold runDijkstra; rw [hd]]
    rfl

/-- Concrete instantiation of claim C6: an unreachable target in the
original graph, and an unreachable target in an iteration's working graph. -/
theorem c6_unreachable_witness :
    bhandariCore id unreachEdges "a" "c" 1 100 =
      Except.error (Failure.recoverable "graph contains no such path") ∧
    bLoop id [IEdge.mk 0 1 1] 0 1 100 [[0, 1]] 1 =
      Except.error (Failure.recoverable "graph contains no such path") :=
  ⟨c6_unreachable_target_is_recoverable.1 id unreachEdges "a" "c" 1 100
      [IEdge.mk 0 1 1, IEdge.mk 2 1 1] 0 2 (by decide) (by decide) (by decide) (by decide),
    c6_unreachable_target_is_recoverable.2 id [IEdge.mk 0 1 1] 0 1 100 [[0, 1]] 0
      [((1, 0), -1)] (by decide) (by decide)⟩

/-! ### The node table is duplicate-free -/

theorem lexLe_total : ∀ (as bs : List Char), lexLe as bs = true ∨ lexLe bs as = true := by
  intro as
  induction as with
  | nil => intro bs; left; rfl
  | cons a as' ih =>
    intro bs
    cases bs with
    | nil => right; rfl
    | cons b bs' =>
      rcases Nat.lt_trichotomy a.toNat b.toNat with h | h | h
      · left; simp [lexLe, h]
      · have hba : ¬ b.toNat < a.toNat := by omega
        have hab : ¬ a.toNat < b.toNat := by omega
        rcases ih bs' with h2 | h2
        · left; simp [lexLe, hab, hba, h2]
        · right; simp [lexLe, hab, hba, h2]
      · right; simp [lexLe, h]

theorem lexLe_trans : ∀ (as bs cs : List Char),
    lexLe as bs = true → lexLe bs cs = true → lexLe as cs = true := by
  intro as
  induction as with
  | nil => intro bs cs _ _; rfl
  | cons a as' ih =>
    intro bs cs h1 h2
    cases bs with
    | nil => simp [lexLe] at h1
    | cons b bs' =>
      cases cs with
      | nil => simp [lexLe] at h2
      | cons c cs' =>
        rcases Nat.lt_trichotomy a.toNat b.toNat with hab | hab | hab
        · rcases Nat.lt_trichotomy b.toNat c.toNat with hbc | hbc | hbc
          · simp [lexLe, show a.toNat < c.toNat by omega]
          · simp [lexLe, show a.toNat < c.toNat by omega]
          · exfalso
            simp [lexLe, show ¬ b.toNat < c.toNat by omega, hbc] at h2
        · rcases Nat.lt_trichotomy b.toNat c.toNat with hbc | hbc | hbc
          · simp [lexLe, show a.toNat < c.toNat by omega]
          · have hac1 : ¬ a.toNat < c.toNat := by omega
            have hac2 : ¬ c.toNat < a.toNat := by omega
            simp only [lexLe, if_neg hac1, if_neg hac2]
            simp only [lexLe, if_neg (show ¬ a.toNat < b.toNat by omega),
              if_neg (show ¬ b.toNat < a.toNat by omega)] at h1
            simp only [lexLe, if_neg (show ¬ b.toNat < c.toNat by omega),
              if_neg (show ¬ c.toNat < b.toNat by omega)] at h2
            exact ih bs' cs' h1 h2
          · exfalso
            simp [lexLe, show ¬ b.toNat < c.toNat by omega, hbc] at h2
        · exfalso
          simp [lexLe, show ¬ a.toNat < b.toNat by omega, hab] at h1

theorem lexLe_antisymm : ∀ (as bs : List Char),
    lexLe as bs = true → lexLe bs as = true → as = bs := by
  intro as
  induction as with
  | nil =>
    intro bs h1 h2
    cases bs with
    | nil => rfl
    | cons b bs' => simp [lexLe] at h2
  | cons a as' ih =>
    intro bs h1 h2
    cases bs with
    | nil => simp [lexLe] at h1
    | cons b bs' =>
      rcases Nat.lt_trichotomy a.toNat b.toNat with hab | hab | hab
      · exfalso
        simp [lexLe, show ¬ b.toNat < a.toNat by omega, hab] at h2
      · have hchar : a = b := by
          apply Char.ext; apply UInt32.ext; exact hab
        subst hchar
        simp only [lexLe, if_neg (show ¬ a.toNat < a.toNat by omega)] at h1 h2
        rw [ih bs' h1 h2]
      · exfalso
        simp [lexLe, show ¬ a.toNat < b.toNat by omega, hab] at h1

instance strLeTotal : IsTotal String strLe :=
  ⟨fun a b => lexLe_total a.data b.data⟩

instance strLeTrans : IsTrans String strLe :=
  ⟨fun a b c h1 h2 => lexLe_trans a.data b.data c.data h1 h2⟩

theorem strLe_antisymm (a b : String) (h1 : strLe a b) (h2 : strLe b a) : a = b :=
  String.ext (lexLe_antisymm a.data b.data h1 h2)

theorem dedupConsec_subset : ∀ (l : List String) (x : String), x ∈ dedupConsec l → x ∈ l := by
  intro l
  induction l with
  | nil => intro x h; cases h
  | cons a rest ih =>
    intro x h
    cases rest with
    | nil => exact h
    | cons b rest' =>
      by_cases hab : a = b
      · rw [show dedupConsec (a :: b :: rest') = dedupConsec (b :: rest') by
          simp [dedupConsec, hab]] at h
        exact List.mem_cons_of_mem a (ih x h)
      · rw [show dedupConsec (a :: b :: rest') = a :: dedupConsec (b :: rest') by
          simp [dedupConsec, hab]] at h
        rcases List.mem_cons.mp h with h | h
        · exact h ▸ List.mem_cons_self a _
        · exact List.mem_cons_of_mem a (ih x h)

theorem dedupConsec_nodup : ∀ (l : List String), List.Sorted strLe l → (dedupConsec l).Nodup := by
  intro l
  induction l with
  | nil => intro _; exact List.nodup_nil
  | cons a rest ih =>
    intro hs
    cases rest with
    | nil => exact List.nodup_singleton a
    | cons b rest' =>
      have hs' : List.Sorted strLe (b :: rest') := hs.tail
      by_cases hab : a = b
      · rw [show dedupConsec (a :: b :: rest') = dedupConsec (b :: rest') by
          simp [dedupConsec, hab]]
        exact ih hs'
      · rw [show dedupConsec (a :: b :: rest') = a :: dedupConsec (b :: rest') by
          simp [dedupConsec, hab]]
        refine List.Nodup.cons ?_ (ih hs')
        intro hmem
        have hx : a ∈ b :: rest' := dedupConsec_subset _ a hmem
        have hba : strLe b a := by
          rcases List.mem_cons.mp hx with h | h
          · exact absurd h hab
          · exact (List.sorted_cons.mp hs').1 a h
        have hab' : strLe a b := (List.sorted_cons.mp hs).1 b (List.mem_cons_self b rest')
        exact hab (strLe_antisymm a b hab' hba)

theorem nodeTable_nodup (edges : List REdge) : (nodeTable edges).Nodup := by
  unfold nodeTable
  exact dedupConsec_nodup _ (List.sorted_insertionSort strLe _)

/-! ### Paths returned by the shortest-path search are simple -/

theorem chainAux_zero (par : List (Nat × Nat)) (s n : Nat) :
    chainAux par s 0 n = if n = s then some [s] else none := by
  rw [chainAux]

theorem chainAux_succ (par : List (Nat × Nat)) (s f n : Nat) :
    chainAux par s (f + 1) n = if n = s then some [s]
      else (alookup n par).bind (fun q => (chainAux par s f q).map (fun l => l ++ [n])) := by
  rw [chainAux]

theorem chainAux_head (par : List (Nat × Nat)) (s : Nat) :
    ∀ (f n : Nat) (l : List Nat), chainAux par s f n = some l → l.head? = some s := by
  intro f
  induction f with
  | zero =>
    intro n l h
    rw [chainAux_zero] at h
    by_cases hn : n = s
    · rw [if_pos hn] at h
      cases h
      rfl
    · rw [if_neg hn] at h
      cases h
  | succ f ih =>
    intro n l h
    rw [chainAux_succ] at h
    by_cases hn : n = s
    · rw [if_pos hn] at h
      cases h
      rfl
    · rw [if_neg hn] at h
      cases hq : alookup n par with
      | none => rw [hq, Option.none_bind] at h; cases h
      | some q =>
        rw [hq, Option.some_bind] at h
        cases hrec : chainAux par s f q with
        | none => rw [hrec, Option.map_none'] at h; cases h
        | some l0 =>
          rw [hrec, Option.map_some'] at h
          cases h
          have hh := ih q l0 hrec
          rw [List.head?_append, hh]
          rfl

theorem chainAux_mono (par : List (Nat × Nat)) (s : Nat) :
    ∀ (f f' n : Nat) (l : List Nat), f ≤ f' → chainAux par s f n = some l →
      chainAux par s f' n = some l := by
  intro f
  induction f with
  | zero =>
    intro f' n l _ h
    rw [chainAux_zero] at h
    by_cases hn : n = s
    · rw [if_pos hn] at h
      cases h
      cases f' with
      | zero => rw [chainAux_zero, if_pos hn]
      | succ f'' => rw [chainAux_succ, if_pos hn]
    · rw [if_neg hn] at h
      cases h
  | succ f ih =>
    intro f' n l hle h
    rw [chainAux_succ] at h
    by_cases hn : n = s
    · rw [if_pos hn] at h
      cases h
      cases f' with
      | zero => rw [chainAux_zero, if_pos hn]
      | succ f'' => rw [chainAux_succ, if_pos hn]
    · rw [if_neg hn] at h
      cases hq : alookup n par with
      | none => rw [hq, Option.none_bind] at h; cases h
      | some q =>
        rw [hq, Option.some_bind] at h
        cases hrec : chainAux par s f q with
        | none => rw [hrec, Option.map_none'] at h; cases h
        | some l0 =>
          rw [hrec, Option.map_some'] at h
          obtain ⟨f'', rfl⟩ : ∃ f'', f' = f'' + 1 := ⟨f' - 1, by omega⟩
          rw [chainAux_succ, if_neg hn, hq, Option.some_bind,
            ih f'' q l0 (by omega) hrec, Option.map_some']
          exact h

theorem chainAux_func (par : List (Nat × Nat)) (s : Nat) (f f' n : Nat) (l l' : List Nat)
    (h : chainAux par s f n = some l) (h' : chainAux par s f' n = some l') : l = l' := by
  have h1 := chainAux_mono par s f (max f f') n l (Nat.le_max_left _ _) h
  have h2 := chainAux_mono par s f' (max f f') n l' (Nat.le_max_right _ _) h'
  rw [h1] at h2
  cases h2
  rfl

theorem chainAux_sub (par : List (Nat × Nat)) (s : Nat) :
    ∀ (f n : Nat) (l : List Nat), chainAux par s f n = some l →
      ∀ m ∈ l, ∃ g l', g ≤ f ∧ chainAux par s g m = some l' ∧
        (l'.length < l.length ∨ m = n) := by
  intro f
  induction f with
  | zero =>
    intro n l h m hm
    rw [chainAux_zero] at h
    by_cases hn : n = s
    · rw [if_pos hn] at h
      cases h
      have hms := List.mem_singleton.mp hm
      refine ⟨0, [s], Nat.le_refl _, ?_, Or.inr (hms.trans hn.symm)⟩
      rw [hms, chainAux_zero, if_pos rfl]
    · rw [if_neg hn] at h
      cases h
  | succ f ih =>
    intro n l h m hm
    rw [chainAux_succ] at h
    by_cases hn : n = s
    · rw [if_pos hn] at h
      cases h
      have hms := List.mem_singleton.mp hm
      refine ⟨0, [s], Nat.zero_le _, ?_, Or.inr (hms.trans hn.symm)⟩
      rw [hms, chainAux_zero, if_pos rfl]
    · rw [if_neg hn] at h
      cases hq : alookup n par with
      | none => rw [hq, Option.none_bind] at h; cases h
      | some q =>
        rw [hq, Option.some_bind] at h
        cases hrec : chainAux par s f q with
        | none => rw [hrec, Option.map_none'] at h; cases h
        | some l0 =>
          rw [hrec, Option.map_some'] at h
          cases h
          rcases List.mem_append.mp hm with hm0 | hmn
          · rcases ih q l0 hrec m hm0 with ⟨g, l', hg, hch, hlen | heq⟩
            · refine ⟨g, l', by omega, hch, Or.inl ?_⟩
              rw [List.length_append]
              simp
              omega
            · subst heq
              refine ⟨f, l0, by omega, hrec, Or.inl ?_⟩
              rw [List.length_append]
              simp
          · have hmn' := List.mem_singleton.mp hmn
            subst hmn'
            refine ⟨f + 1, l0 ++ [m], Nat.le_refl _, ?_, Or.inr rfl⟩
            rw [chainAux_succ, if_neg hn, hq, Option.some_bind, hrec, Option.map_some']

theorem chainAux_nodup (par : List (Nat × Nat)) (s : Nat) :
    ∀ (f n : Nat) (l : List Nat), chainAux par s f n = some l → l.Nodup := by
  intro f
  induction f with
  | zero =>
    intro n l h
    rw [chainAux_zero] at h
    by_cases hn : n = s
    · rw [if_pos hn] at h
      cases h
      exact List.nodup_singleton s
    · rw [if_neg hn] at h
      cases h
  | succ f ih =>
    intro n l h
    have horig := h
    rw [chainAux_succ] at h
    by_cases hn : n = s
    · rw [if_pos hn] at h
      cases h
      exact List.nodup_singleton s
    · rw [if_neg hn] at h
      cases hq : alookup n par with
      | none => rw [hq, Option.none_bind] at h; cases h
      | some q =>
        rw [hq, Option.some_bind] at h
        cases hrec : chainAux par s f q with
        | none => rw [hrec, Option.map_none'] at h; cases h
        | some l0 =>
          rw [hrec, Option.map_some'] at h
          cases h
          have hnd0 := ih q l0 hrec
          have hnotin : n ∉ l0 := by
            intro hmem
            rcases chainAux_sub par s f q l0 hrec n hmem with ⟨g, l', _, hch, hlen | heq⟩
            · have hfl := chainAux_func par s g (f + 1) n l' (l0 ++ [n]) hch horig
              rw [hfl, List.length_append] at hlen
              simp at hlen
            · subst heq
              have hfl := chainAux_func par s f (f + 1) n l0 (l0 ++ [n]) hrec horig
              have hlen : l0.length = (l0 ++ [n]).length := by rw [← hfl]
              rw [List.length_append] at hlen
              simp at hlen
          rw [List.nodup_append]
          refine ⟨hnd0, List.nodup_singleton n, fun a ha hb => ?_⟩
          have hab := List.mem_singleton.mp hb
          subst hab
          exact hnotin ha

theorem dloop_success (succ : Nat → List (Nat × Int)) (stopAt : Nat → Bool) (start : Nat) :
    ∀ (f : Nat) (st : DState) (p : List Nat),
      dloop succ stopAt start f st = some (some p) →
      ∃ par n, chainAux par start (par.length + 1) n = some p := by
  intro f
  induction f with
  | zero => intro st p h; cases h
  | succ f ih =>
    intro st p h
    obtain ⟨dist, par, queue⟩ := st
    cases queue with
    | nil =>
      simp only [dloop] at h
      simp at h
    | cons cu rest =>
      obtain ⟨c, u⟩ := cu
      simp only [dloop] at h
      by_cases hstop : stopAt u
      · rw [if_pos hstop] at h
        cases hch : chainAux par start (par.length + 1) u with
        | none =>
          simp only [hch] at h
          simp at h
        | some p0 =>
          simp only [hch] at h
          cases h
          exact ⟨par, u, hch⟩
      · rw [if_neg hstop] at h
        cases hd : alookup u dist with
        | none =>
          simp only [hd] at h
          exact ih _ p h
        | some cu' =>
          simp only [hd] at h
          by_cases hlt : cu' < c
          · rw [if_pos hlt] at h
            exact ih _ p h
          · rw [if_neg hlt] at h
            exact ih _ p h

/-- Any path the search returns starts at the start node and repeats no
node. -/
theorem runDijkstra_shape (succ : Nat → List (Nat × Int)) (stopAt : Nat → Bool)
    (start fuel : Nat) (p : List Nat) (h : runDijkstra succ stopAt start fuel = Except.ok p) :
    p.head? = some start ∧ p.Nodup := by
  unfold runDijkstra at h
  cases hd : dijkstra succ stopAt start fuel with
  | none =>
    simp only [hd] at h
    cases h
  | some o =>
    cases o with
    | none =>
      simp only [hd] at h
      cases h
    | some p0 =>
      simp only [hd] at h
      have hp : p0 = p := by
        cases h
        rfl
      subst hp
      unfold dijkstra at hd
      rcases dloop_success succ stopAt start fuel _ p0 hd with ⟨par, n, hch⟩
      exact ⟨chainAux_head par start _ n p0 hch, chainAux_nodup par start _ n p0 hch⟩

/-! ### Invariants of the accumulated path set -/

/-- Two paths share no directed link. -/
def LinkDisjoint (p q : List Nat) : Prop := ∀ l : Link, l ∈ linksOf p → l ∉ linksOf q

/-- The per-path invariant: starts at the source, no repeated or opposite
link within the path, and no link back into the source. -/
def GoodPath (s : Nat) (p : List Nat) : Prop :=
  p.head? = some s ∧ noUndirDup (linksOf p) ∧ ∀ l ∈ linksOf p, l.2 ≠ s

/-- The path-set invariant maintained across composer iterations. -/
def GoodPaths (s : Nat) (ps : List (List Nat)) : Prop :=
  (∀ p ∈ ps, GoodPath s p) ∧ List.Pairwise LinkDisjoint ps

theorem linksOf_length (p : List Nat) : (linksOf p).length = p.length - 1 := by
  unfold linksOf
  rw [List.length_zip, List.length_tail]
  exact Nat.min_eq_right (by omega)

theorem linksOf_getElem (p : List Nat) (i : Nat) (h : i < (linksOf p).length) :
    ∃ (h1 : i < p.length) (h2 : i + 1 < p.length), (linksOf p)[i] = (p[i], p[i + 1]) := by
  have hl := linksOf_length p
  have h1 : i < p.length := by omega
  have h2 : i + 1 < p.length := by omega
  refine ⟨h1, h2, ?_⟩
  unfold linksOf at h ⊢
  rw [List.getElem_zip, List.getElem_tail]

theorem noUndirDup_nodup (ls : List Link) (h : noUndirDup ls) : ls.Nodup := by
  unfold noUndirDup at h
  exact h.imp (fun hab heq => by subst heq; rw [undirEq_refl] at hab; cases hab)

/-- A duplicate-free path starting at `s` satisfies the per-path invariant. -/
theorem goodPath_of_simple (s : Nat) (p : List Nat) (hh : p.head? = some s) (hnd : p.Nodup) :
    GoodPath s p := by
  have hp0 : ∃ h0 : 0 < p.length, p[0] = s := by
    cases p with
    | nil => cases hh
    | cons a rest =>
      cases hh
      exact ⟨by simp, rfl⟩
  obtain ⟨h0, hp0⟩ := hp0
  refine ⟨hh, ?_, ?_⟩
  · unfold noUndirDup
    rw [List.pairwise_iff_getElem]
    intro i j hi hj hij
    obtain ⟨hi1, hi2, hieq⟩ := linksOf_getElem p i hi
    obtain ⟨hj1, hj2, hjeq⟩ := linksOf_getElem p j hj
    rw [hieq, hjeq]
    cases hu : undirEq (p[i], p[i + 1]) (p[j], p[j + 1])
    · rfl
    · exfalso
      rcases (undirEq_iff _ _).mp hu with ⟨ha, hb⟩ | ⟨ha, hb⟩
      · have := (List.Nodup.getElem_inj_iff hnd).mp ha
        omega
      · have e1 := (List.Nodup.getElem_inj_iff hnd).mp ha
        have e2 := (List.Nodup.getElem_inj_iff hnd).mp hb
        omega
  · intro l hl
    rw [List.mem_iff_getElem] at hl
    obtain ⟨i, hi, hieq⟩ := hl
    obtain ⟨hi1, hi2, hieq2⟩ := linksOf_getElem p i hi
    rw [hieq2] at hieq
    intro hcon
    have hsnd : p[i + 1] = s := by rw [← hcon, ← hieq]
    have : p[i + 1] = p[0] := by rw [hsnd, hp0]
    have := (List.Nodup.getElem_inj_iff hnd).mp this
    omega

theorem noUndirDup_cancelOrAdd (acc : List Link) (l : Link) (h : noUndirDup acc) :
    noUndirDup (cancelOrAdd acc l) := by
  unfold cancelOrAdd
  cases hf : acc.findIdx? (fun x => undirEq l x) with
  | some i => exact List.Pairwise.sublist (List.eraseIdx_sublist acc i) h
  | none =>
    unfold noUndirDup
    rw [List.pairwise_append]
    refine ⟨h, List.pairwise_singleton _ _, ?_⟩
    intro a ha b hb
    have hbl := List.mem_singleton.mp hb
    subst hbl
    have hfa := List.findIdx?_eq_none_iff.mp hf a ha
    rw [undirEq_symm]
    exact hfa

theorem noUndirDup_foldl_cancelOrAdd :
    ∀ (L acc : List Link), noUndirDup acc → noUndirDup (L.foldl cancelOrAdd acc) := by
  intro L
  induction L with
  | nil => intro acc h; exact h
  | cons l L' ih =>
    intro acc h
    rw [List.foldl_cons]
    exact ih _ (noUndirDup_cancelOrAdd acc l h)

theorem noUndirDup_foldl_paths :
    ∀ (qs : List (List Nat)) (acc : List Link), noUndirDup acc →
      noUndirDup (qs.foldl (fun acc q => (linksOf q).foldl cancelOrAdd acc) acc) := by
  intro qs
  induction qs with
  | nil => intro acc h; exact h
  | cons q qs' ih =>
    intro acc h
    rw [List.foldl_cons]
    exact ih _ (noUndirDup_foldl_cancelOrAdd (linksOf q) acc h)

theorem noUndirDup_uncross (p : List Nat) (ps : List (List Nat))
    (h : noUndirDup (linksOf p)) : noUndirDup (uncross (p :: ps)) :=
  noUndirDup_foldl_paths ps (linksOf p) h

theorem mem_cancelOrAdd (acc : List Link) (l x : Link) (h : x ∈ cancelOrAdd acc l) :
    x ∈ acc ∨ x = l := by
  unfold cancelOrAdd at h
  cases hf : acc.findIdx? (fun x => undirEq l x) with
  | some i =>
    rw [hf] at h
    exact Or.inl ((List.eraseIdx_sublist acc i).subset h)
  | none =>
    rw [hf] at h
    rcases List.mem_append.mp h with h | h
    · exact Or.inl h
    · exact Or.inr (List.mem_singleton.mp h)

theorem mem_foldl_cancelOrAdd :
    ∀ (L acc : List Link) (x : Link), x ∈ L.foldl cancelOrAdd acc → x ∈ acc ∨ x ∈ L := by
  intro L
  induction L with
  | nil => intro acc x h; exact Or.inl h
  | cons l L' ih =>
    intro acc x h
    rw [List.foldl_cons] at h
    rcases ih _ x h with h2 | h2
    · rcases mem_cancelOrAdd acc l x h2 with h3 | h3
      · exact Or.inl h3
      · exact Or.inr (h3 ▸ List.mem_cons_self l L')
    · exact Or.inr (List.mem_cons_of_mem l h2)

theorem mem_uncross (paths : List (List Nat)) (x : Link) (h : x ∈ uncross paths) :
    ∃ p ∈ paths, x ∈ linksOf p := by
  cases paths with
  | nil => cases h
  | cons p ps =>
    have haux : ∀ (qs : List (List Nat)) (acc : List Link),
        x ∈ qs.foldl (fun acc q => (linksOf q).foldl cancelOrAdd acc) acc →
        x ∈ acc ∨ ∃ q ∈ qs, x ∈ linksOf q := by
      intro qs
      induction qs with
      | nil => intro acc h2; exact Or.inl h2
      | cons q qs' ih =>
        intro acc h2
        rw [List.foldl_cons] at h2
        rcases ih _ h2 with h3 | ⟨q', hq', hx⟩
        · rcases mem_foldl_cancelOrAdd _ _ x h3 with h4 | h4
          · exact Or.inl h4
          · exact Or.inr ⟨q, List.mem_cons_self q qs', h4⟩
        · exact Or.inr ⟨q', List.mem_cons_of_mem q hq', hx⟩
    rcases haux ps (linksOf p) h with h2 | ⟨q, hq, hx⟩
    · exact ⟨p, List.mem_cons_self p ps, h2⟩
    · exact ⟨q, List.mem_cons_of_mem p hq, hx⟩

/-! ### The reconstruction step produces link-disjoint paths -/

theorem extractFirst_some (q : Link → Bool) :
    ∀ (ls : List Link) (x : Link) (rest : List Link),
      extractFirst q ls = some (x, rest) → q x = true ∧ ls.Perm (x :: rest) := by
  intro ls
  induction ls with
  | nil => intro x rest h; cases h
  | cons l ls' ih =>
    intro x rest h
    unfold extractFirst at h
    by_cases hq : q l
    · rw [if_pos hq] at h
      cases h
      exact ⟨hq, List.Perm.refl _⟩
    · rw [if_neg hq] at h
      cases he : extractFirst q ls' with
      | none => rw [he] at h; cases h
      | some pr =>
        obtain ⟨x0, r0⟩ := pr
        rw [he, Option.map_some'] at h
        cases h
        obtain ⟨hq0, hperm⟩ := ih x0 r0 he
        exact ⟨hq0, (hperm.cons l).trans (List.Perm.swap x0 l r0)⟩

theorem walkFrom_zero (tgt : Nat) (links : List Link) (cur : Nat) :
    walkFrom tgt 0 links cur =
      if cur = tgt then Except.ok ([], links) else Except.error Failure.fuelOut := rfl

theorem walkFrom_succ (tgt f : Nat) (links : List Link) (cur : Nat) :
    walkFrom tgt (f + 1) links cur =
      if cur = tgt then Except.ok ([], links)
      else
        match extractFirst (fun l => l.1 == cur) links with
        | none => Except.error (Failure.fatal "should exist")
        | some (l, rest) =>
          (walkFrom tgt f rest l.2).map (fun pr => (l.2 :: pr.1, pr.2)) := rfl

theorem walkFrom_spec (tgt s : Nat) :
    ∀ (f : Nat) (links : List Link) (cur : Nat) (ns : List Nat) (rem : List Link),
      walkFrom tgt f links cur = Except.ok (ns, rem) →
      links.Perm (linksOf (cur :: ns) ++ rem) ∧
        (cur ≠ s → (∀ l ∈ links, l.2 ≠ s) →
          ∀ c ∈ linksOf (cur :: ns), c.1 ≠ s ∧ c.2 ≠ s) := by
  intro f
  induction f with
  | zero =>
    intro links cur ns rem h
    rw [walkFrom_zero] at h
    by_cases hct : cur = tgt
    · rw [if_pos hct] at h
      cases h
      refine ⟨by simp [linksOf], ?_⟩
      intro _ _ c hc
      simp [linksOf] at hc
    · rw [if_neg hct] at h
      cases h
  | succ f ih =>
    intro links cur ns rem h
    rw [walkFrom_succ] at h
    by_cases hct : cur = tgt
    · rw [if_pos hct] at h
      cases h
      refine ⟨by simp [linksOf], ?_⟩
      intro _ _ c hc
      simp [linksOf] at hc
    · rw [if_neg hct] at h
      cases hex : extractFirst (fun l => l.1 == cur) links with
      | none =>
        simp only [hex] at h
        cases h
      | some pr =>
        obtain ⟨l, rest⟩ := pr
        simp only [hex] at h
        cases hw : walkFrom tgt f rest l.2 with
        | error e =>
          simp only [hw, Except.map] at h
          cases h
        | ok pr2 =>
          obtain ⟨ns0, rem0⟩ := pr2
          simp only [hw, Except.map] at h
          rw [Except.ok.injEq, Prod.mk.injEq] at h
          obtain ⟨h1, h2⟩ := h
          subst h1
          subst h2
          obtain ⟨hql, hpex⟩ := extractFirst_some _ links l rest hex
          have hl1 : l.1 = cur := eq_of_beq hql
          obtain ⟨hperm0, hsafe0⟩ := ih rest l.2 ns0 rem0 hw
          have hleta : l = (cur, l.2) := by
            rw [← hl1]
          have hlinkseq : linksOf (cur :: l.2 :: ns0) = (cur, l.2) :: linksOf (l.2 :: ns0) := rfl
          have hlmem : l ∈ links := hpex.mem_iff.mpr (List.mem_cons_self l rest)
          constructor
          · rw [hlinkseq]
            have h1 : links.Perm (l :: rest) := hpex
            have h2 : (l :: rest).Perm (l :: (linksOf (l.2 :: ns0) ++ rem0)) := hperm0.cons l
            have h3 := h1.trans h2
            rw [hleta] at h3
            exact h3
          · intro hcur hto c hc
            rw [hlinkseq] at hc
            rcases List.mem_cons.mp hc with hc | hc
            · subst hc
              exact ⟨hcur, hto l hlmem⟩
            · have hl2ne : l.2 ≠ s := hto l hlmem
              have htorest : ∀ x ∈ rest, x.2 ≠ s := by
                intro x hx
                exact hto x (hpex.mem_iff.mpr (List.mem_cons_of_mem l hx))
              exact hsafe0 hl2ne htorest c hc

theorem undirEq_false_symmetric :
    ∀ {x y : Link}, undirEq x y = false → undirEq y x = false := by
  intro x y h
  rw [undirEq_symm]
  exact h

theorem walkAll_spec (tgt s : Nat) :
    ∀ (starting links : List Link) (ps : List (List Nat)) (fin : List Link),
      walkAll tgt starting links = Except.ok (ps, fin) →
      noUndirDup links →
      (∀ l ∈ links, l.2 ≠ s) →
      (∀ st ∈ starting, st.1 = s ∧ st ∈ links) →
      starting.Nodup →
      (∀ p ∈ ps, GoodPath s p) ∧ List.Pairwise LinkDisjoint ps ∧
        (∀ p ∈ ps, ∀ c ∈ linksOf p, c ∈ links ∧ (c.1 = s → c ∈ starting)) := by
  intro starting
  induction starting with
  | nil =>
    intro links ps fin h _ _ _ _
    simp only [walkAll] at h
    cases h
    refine ⟨?_, List.Pairwise.nil, ?_⟩
    · intro p hp; cases hp
    · intro p hp; cases hp
  | cons st more ih =>
    intro links ps fin h hnd hto hst hstnd
    simp only [walkAll] at h
    cases hw : walkFrom tgt (links.length + 1) links st.2 with
    | error e => rw [hw, except_bind_error] at h; cases h
    | ok pr =>
      obtain ⟨ns, rem⟩ := pr
      rw [hw, except_bind_ok] at h
      cases hall : walkAll tgt more rem with
      | error e => rw [hall, except_bind_error] at h; cases h
      | ok pr2 =>
        obtain ⟨ps', fin'⟩ := pr2
        rw [hall, except_bind_ok] at h
        cases h
        obtain ⟨hst1, hstml⟩ := hst st (List.mem_cons_self st more)
        have hst2ne : st.2 ≠ s := hto st hstml
        obtain ⟨hperm, hsafe⟩ := walkFrom_spec tgt s _ links st.2 ns rem hw
        have hcs : ∀ c ∈ linksOf (st.2 :: ns), c.1 ≠ s ∧ c.2 ≠ s := hsafe hst2ne hto
        have hndcr : noUndirDup (linksOf (st.2 :: ns) ++ rem) := by
          unfold noUndirDup at hnd ⊢
          exact (List.Perm.pairwise_iff (fun hab => undirEq_false_symmetric hab) hperm).mp hnd
        have hndpairs : (linksOf (st.2 :: ns) ++ rem).Nodup := noUndirDup_nodup _ hndcr
        have hdisj : (linksOf (st.2 :: ns)).Disjoint rem := (List.nodup_append.mp hndpairs).2.2
        have hstinrem : st ∈ rem := by
          have hin : st ∈ linksOf (st.2 :: ns) ++ rem := hperm.mem_iff.mp hstml
          rcases List.mem_append.mp hin with hin | hin
          · exact absurd hst1 (hcs st hin).1
          · exact hin
        have hndrem : noUndirDup rem := by
          unfold noUndirDup at hndcr ⊢
          exact (List.pairwise_append.mp hndcr).2.1
        have hmemlinks : ∀ x ∈ rem, x ∈ links := by
          intro x hx
          exact hperm.mem_iff.mpr (List.mem_append.mpr (Or.inr hx))
        have hcslinks : ∀ x ∈ linksOf (st.2 :: ns), x ∈ links := by
          intro x hx
          exact hperm.mem_iff.mpr (List.mem_append.mpr (Or.inl hx))
        have htorem : ∀ l ∈ rem, l.2 ≠ s := fun l hl => hto l (hmemlinks l hl)
        have hstmore : ∀ st' ∈ more, st'.1 = s ∧ st' ∈ rem := by
          intro st' hst'
          obtain ⟨h1, h2⟩ := hst st' (List.mem_cons_of_mem st hst')
          refine ⟨h1, ?_⟩
          have hin : st' ∈ linksOf (st.2 :: ns) ++ rem := hperm.mem_iff.mp h2
          rcases List.mem_append.mp hin with hin | hin
          · exact absurd h1 (hcs st' hin).1
          · exact hin
        have hmorend : more.Nodup := (List.nodup_cons.mp hstnd).2
        have hstnotmore : st ∉ more := (List.nodup_cons.mp hstnd).1
        obtain ⟨ihG, ihPW, ihM⟩ := ih rem ps' fin' hall hndrem htorem hstmore hmorend
        have hlq : linksOf (st.1 :: st.2 :: ns) = (st.1, st.2) :: linksOf (st.2 :: ns) := rfl
        have hsteta : (st.1, st.2) = st := rfl
        have hgoodq : GoodPath s (st.1 :: st.2 :: ns) := by
          refine ⟨by rw [hst1]; rfl, ?_, ?_⟩
          · rw [hlq, hsteta]
            unfold noUndirDup
            refine List.Pairwise.cons ?_ ?_
            · intro c hc
              have hpw := (List.pairwise_append.mp hndcr).2.2 c hc st hstinrem
              exact undirEq_false_symmetric hpw
            · unfold noUndirDup at hndcr
              exact (List.pairwise_append.mp hndcr).1
          · intro l hl
            rw [hlq, hsteta] at hl
            rcases List.mem_cons.mp hl with hl | hl
            · subst hl
              exact hst2ne
            · exact (hcs l hl).2
        have hqmem : ∀ c ∈ linksOf (st.1 :: st.2 :: ns),
            c ∈ links ∧ (c.1 = s → c ∈ st :: more) := by
          intro c hc
          rw [hlq, hsteta] at hc
          rcases List.mem_cons.mp hc with hc | hc
          · rw [hc]
            exact ⟨hstml, fun _ => List.mem_cons_self st more⟩
          · exact ⟨hcslinks c hc, fun hc1 => absurd hc1 (hcs c hc).1⟩
        have hdisjq : ∀ p' ∈ ps', LinkDisjoint (st.1 :: st.2 :: ns) p' := by
          intro p' hp' l hlq' hlp'
          rw [hlq, hsteta] at hlq'
          obtain ⟨hlrem, hlimp⟩ := ihM p' hp' l hlp'
          rcases List.mem_cons.mp hlq' with hl | hl
          · subst hl
            exact hstnotmore (hlimp hst1)
          · exact hdisj hl hlrem
        refine ⟨?_, ?_, ?_⟩
        · intro p hp
          rcases List.mem_cons.mp hp with hp | hp
          · subst hp
            exact hgoodq
          · exact ihG p hp
        · exact List.Pairwise.cons hdisjq ihPW
        · intro p hp c hc
          rcases List.mem_cons.mp hp with hp | hp
          · subst hp
            exact hqmem c hc
          · obtain ⟨h1, h2⟩ := ihM p hp c hc
            exact ⟨hmemlinks c h1, fun hc1 => List.mem_cons_of_mem st (h2 hc1)⟩

/-- The reconstruction step, applied to a surviving link list with no
duplicate or opposite pairs and no link into the source, yields paths
satisfying the invariant — in particular pairwise link-disjoint paths. -/
theorem reconstruct_spec (s tgt : Nat) (unique : List Link) (ps : List (List Nat))
    (hnd : noUndirDup unique) (hto : ∀ l ∈ unique, l.2 ≠ s)
    (h : reconstruct s tgt unique = Except.ok ps) : GoodPaths s ps := by
  simp only [reconstruct] at h
  cases hw : walkAll tgt (unique.filter (fun l => l.1 == s)) unique with
  | error e => rw [hw, except_bind_error] at h; cases h
  | ok pr =>
    obtain ⟨ps0, fin⟩ := pr
    rw [hw, except_bind_ok] at h
    cases h
    have hst : ∀ st ∈ unique.filter (fun l => l.1 == s), st.1 = s ∧ st ∈ unique := by
      intro st hstm
      obtain ⟨h1, h2⟩ := List.mem_filter.mp hstm
      exact ⟨of_decide_eq_true h2, h1⟩
    have hstnd : (unique.filter (fun l => l.1 == s)).Nodup :=
      List.Nodup.filter _ (noUndirDup_nodup unique hnd)
    obtain ⟨hG, hPW, _⟩ := walkAll_spec tgt s _ unique ps0 fin hw hnd hto hst hstnd
    exact ⟨hG, hPW⟩

/-! ### The composer loop preserves the invariant -/

theorem uncross_good (s : Nat) (X : List (List Nat)) (hX : ∀ p ∈ X, GoodPath s p)
    (hne : X ≠ []) : noUndirDup (uncross X) ∧ ∀ l ∈ uncross X, l.2 ≠ s := by
  cases X with
  | nil => exact absurd rfl hne
  | cons p ps =>
    constructor
    · exact noUndirDup_uncross p ps (hX p (List.mem_cons_self p ps)).2.1
    · intro l hl
      rcases mem_uncross _ l hl with ⟨q, hq, hlq⟩
      exact (hX q hq).2.2 l hlq

theorem bLoop_preserves (sigma : WMap → WMap) (g : List IEdge) (s t fuel : Nat) :
    ∀ (n : Nat) (paths out : List (List Nat)), GoodPaths s paths →
      bLoop sigma g s t fuel paths n = Except.ok out → GoodPaths s out := by
  intro n
  induction n with
  | zero =>
    intro paths out hg h
    simp only [bLoop] at h
    cases h
    exact hg
  | succ n ih =>
    intro paths out hg h
    simp only [bLoop] at h
    cases hbw : buildWorking (fromIterMap g) paths with
    | error e => rw [hbw, except_bind_error] at h; cases h
    | ok w =>
      rw [hbw, except_bind_ok] at h
      cases hrd : runDijkstra (succsOfMap (sigma w)) (fun u => u == t) s fuel with
      | error e => rw [hrd, except_bind_error] at h; cases h
      | ok pnew =>
        rw [hrd, except_bind_ok] at h
        cases hrc : reconstruct s t (uncross (paths ++ [pnew])) with
        | error e => rw [hrc, except_bind_error] at h; cases h
        | ok paths2 =>
          rw [hrc, except_bind_ok] at h
          have hpnew : GoodPath s pnew := by
            obtain ⟨hh, hnd⟩ := runDijkstra_shape _ _ _ _ _ hrd
            exact goodPath_of_simple s pnew hh hnd
          have hXgood : ∀ p ∈ paths ++ [pnew], GoodPath s p := by
            intro p hp
            rcases List.mem_append.mp hp with hp | hp
            · exact hg.1 p hp
            · rw [List.mem_singleton.mp hp]
              exact hpnew
          obtain ⟨hu1, hu2⟩ := uncross_good s (paths ++ [pnew]) hXgood (by simp)
          exact ih paths2 out (reconstruct_spec s t _ paths2 hu1 hu2 hrc) h

/-! ### Transfer to the name-mapped output -/

/-- The link list of a name-level path. -/
def linksOfStr (p : List String) : List (String × String) := p.zip p.tail

theorem getOrPanic_ok {α : Type} (o : Option α) (msg : String) (x : α)
    (h : getOrPanic o msg = Except.ok x) : o = some x := by
  cases o with
  | some a =>
    cases h
    rfl
  | none => cases h

theorem mapM_ok_forall2 {α β : Type} (f : α → Except Failure β) :
    ∀ (l : List α) (l' : List β), l.mapM f = Except.ok l' →
      List.Forall₂ (fun a b => f a = Except.ok b) l l' := by
  intro l
  induction l with
  | nil =>
    intro l' h
    rw [List.mapM_nil] at h
    cases h
    exact List.Forall₂.nil
  | cons a l ih =>
    intro l' h
    rw [List.mapM_cons] at h
    cases hfa : f a with
    | error e => rw [hfa, except_bind_error] at h; cases h
    | ok b =>
      rw [hfa, except_bind_ok] at h
      cases hml : l.mapM f with
      | error e => rw [hml, except_bind_error] at h; cases h
      | ok bs =>
        rw [hml, except_bind_ok] at h
        cases h
        exact List.Forall₂.cons hfa (ih bs hml)

theorem forall2_mem_right {α β : Type} {R : α → β → Prop} :
    ∀ {l : List α} {l' : List β}, List.Forall₂ R l l' → ∀ y ∈ l', ∃ x ∈ l, R x y := by
  intro l l' h
  induction h with
  | nil => intro y hy; cases hy
  | cons hR hrec ih =>
    intro y hy
    rcases List.mem_cons.mp hy with rfl | hy
    · exact ⟨_, List.mem_cons_self _ _, hR⟩
    · rcases ih y hy with ⟨x, hx, hxy⟩
      exact ⟨x, List.mem_cons_of_mem _ hx, hxy⟩

theorem forall2_links {α β : Type} {R : α → β → Prop} :
    ∀ {p : List α} {q : List β}, List.Forall₂ R p q →
      ∀ x y, (x, y) ∈ q.zip q.tail → ∃ a b, (a, b) ∈ p.zip p.tail ∧ R a x ∧ R b y := by
  intro p q h
  induction h with
  | nil => intro x y hxy; cases hxy
  | cons hR hrec ih =>
    intro x y hxy
    cases hrec with
    | nil => cases hxy
    | cons hR2 hrec2 =>
      rcases List.mem_cons.mp hxy with heq | hxy2
      · rw [Prod.mk.injEq] at heq
        obtain ⟨rfl, rfl⟩ := heq
        exact ⟨_, _, List.mem_cons_self _ _, hR, hR2⟩
      · rcases ih x y hxy2 with ⟨a', b', hmem, h1, h2⟩
        exact ⟨a', b', List.mem_cons_of_mem _ hmem, h1, h2⟩

theorem forall2_pairwise {α β : Type} {R : α → β → Prop} {T : α → α → Prop}
    {U : β → β → Prop} (hcompat : ∀ a b a' b', R a a' → R b b' → T a b → U a' b') :
    ∀ {l : List α} {l' : List β}, List.Forall₂ R l l' →
      List.Pairwise T l → List.Pairwise U l' := by
  intro l l' h
  induction h with
  | nil => intro _; exact List.Pairwise.nil
  | cons hR hrec ih =>
    intro hpw
    obtain ⟨hhead, htail⟩ := List.pairwise_cons.mp hpw
    refine List.Pairwise.cons ?_ (ih htail)
    intro y' hy'
    rcases forall2_mem_right hrec y' hy' with ⟨y, hy, hR2⟩
    exact hcompat _ y _ y' hR hR2 (hhead y hy)

/-- For claim C1: whenever `bhandari` returns a path list, that list is
pairwise link-disjoint — no ordered node pair occurs as a consecutive pair
of two different returned paths.  This holds for every input, every search
fuel and every working-graph enumeration order. -/
theorem c1_output_paths_pairwise_link_disjoint (sigma : WMap → WMap) (edges : List REdge)
    (sName tName : String) (k fuel : Nat) (out : List (List String))
    (h : bhandariCore sigma edges sName tName k fuel = Except.ok out) :
    List.Pairwise (fun p q => ∀ x y : String,
      (x, y) ∈ linksOfStr p → (x, y) ∉ linksOfStr q) out := by
  simp only [bhandariCore] at h
  cases hg : convertEdges (nodeTable edges) edges with
  | error e => rw [hg, except_bind_error] at h; cases h
  | ok g =>
    rw [hg, except_bind_ok] at h
    cases hgs : getOrPanic ((nodeTable edges).findIdx? (fun n => n = sName)) "unwrap on None" with
    | error e => rw [hgs, except_bind_error] at h; cases h
    | ok s =>
      rw [hgs, except_bind_ok] at h
      cases hgt : getOrPanic ((nodeTable edges).findIdx? (fun n => n = tName)) "unwrap on None" with
      | error e => rw [hgt, except_bind_error] at h; cases h
      | ok t =>
        rw [hgt, except_bind_ok] at h
        cases hrd : runDijkstra (succsOfVec g) (fun u => u == t) s fuel with
        | error e => rw [hrd, except_bind_error] at h; cases h
        | ok p1 =>
          rw [hrd, except_bind_ok] at h
          cases hsub : subOne k with
          | error e => rw [hsub, except_bind_error] at h; cases h
          | ok iters =>
            rw [hsub, except_bind_ok] at h
            cases hbl : bLoop sigma g s t fuel [p1] iters with
            | error e => rw [hbl, except_bind_error] at h; cases h
            | ok finalPaths =>
              rw [hbl, except_bind_ok] at h
              have hshape := runDijkstra_shape _ _ _ _ _ hrd
              have hgood1 : GoodPaths s [p1] := by
                refine ⟨?_, List.pairwise_singleton _ _⟩
                intro p hp
                rw [List.mem_singleton.mp hp]
                exact goodPath_of_simple s p1 hshape.1 hshape.2
              have hgoodF : GoodPaths s finalPaths :=
                bLoop_preserves sigma g s t fuel iters [p1] finalPaths hgood1 hbl
              have hnodesnd : (nodeTable edges).Nodup := nodeTable_nodup edges
              unfold namesBack at h
              have hf2 := mapM_ok_forall2 _ finalPaths out h
              have hf2' : List.Forall₂
                  (fun p q => List.Forall₂
                    (fun i x => (nodeTable edges)[i]? = some x) p q) finalPaths out := by
                refine hf2.imp ?_
                intro p q hpq
                refine (mapM_ok_forall2 _ p q hpq).imp ?_
                intro i x hix
                rw [← List.get?_eq_getElem?]
                exact getOrPanic_ok _ _ _ hix
              refine forall2_pairwise ?_ hf2' hgoodF.2
              intro p q p' q' hpp' hqq' hdisj x y hxp' hxq'
              unfold linksOfStr at hxp' hxq'
              rcases forall2_links hpp' x y hxp' with ⟨a, b, hab, ha, hb⟩
              rcases forall2_links hqq' x y hxq' with ⟨a2, b2, hab2, ha2, hb2⟩
              have hlena : a < (nodeTable edges).length := by
                rcases List.getElem?_eq_some.mp ha with ⟨hlt, _⟩
                exact hlt
              have hlenb : b < (nodeTable edges).length := by
                rcases List.getElem?_eq_some.mp hb with ⟨hlt, _⟩
                exact hlt
              have haa : a = a2 := by
                apply List.getElem?_inj hlena hnodesnd
                rw [ha, ha2]
              have hbb : b = b2 := by
                apply List.getElem?_inj hlenb hnodesnd
                rw [hb, hb2]
              subst haa
              subst hbb
              exact hdisj (a, b) hab hab2

/-- Concrete instantiation of claim C1: a feasible two-path instance where
the run succeeds and the returned paths share no link. -/
theorem c1_disjoint_witness :
    List.Pairwise (fun p q => ∀ x y : String,
      (x, y) ∈ linksOfStr p → (x, y) ∉ linksOfStr q)
      [["a", "b", "d"], ["a", "c", "d"]] :=
  c1_output_paths_pairwise_link_disjoint id
    [REdge.mk "a" "b" 1, REdge.mk "b" "d" 1, REdge.mk "a" "c" 1, REdge.mk "c" "d" 1]
    "a" "d" 2 200 [["a", "b", "d"], ["a", "c", "d"]] (by decide)

end BhandariRs
